import Mathlib

/-!
Verification of the geometric core of the art-gallery visibility program
(`game.py`).  The program works on pairs of machine floats; we embed its
arithmetic in an arbitrary linear ordered field `F` (instantiated at `ℚ`
for concrete evaluations), so every numeric comparison and division of the
source is modelled exactly.  The transcendental functions `atan2`, `cos`
and `sin` enter the source only as black boxes producing field values, so
they are passed as oracle parameters where needed.
-/

namespace ArtGallery

variable {F : Type} [LinearOrderedField F]

/-- Source constant `EPS = 1e-9`, the tolerance used to avoid division by
zero and to detect parallel segments. -/
def EPS : F := 1 / 1000000000

/-- Source constant `WIDTH = 600`. -/
def WIDTH : F := 600

/-- Source constant `HEIGHT = 600`. -/
def HEIGHT : F := 600

/-- Source constant `RAY_LENGTH = WIDTH + HEIGHT`, long enough for a ray
to always leave the polygon. -/
def RAY_LENGTH : F := WIDTH + HEIGHT

/-- The global polygon of the game, `polygon_points` from the source. -/
def polygon_points : List (ℚ × ℚ) :=
  [(100, 100), (350, 80), (450, 150), (400, 250), (500, 300),
   (350, 350), (450, 450), (250, 400), (150, 450), (120, 250)]

/-- The list of closed-boundary edges `(poly[i], poly[(i+1) % n])` that
every loop of the source traverses. -/
def polygon_edges (poly : List (F × F)) : List ((F × F) × (F × F)) :=
  match poly with
  | [] => []
  | v :: rest => (v :: rest).zip (rest ++ [v])

/-- The denominator used by `point_in_polygon` for one edge: the edge's
y-delta, replaced by `EPS` when its absolute value is not above `EPS`
(source line 34-35). -/
def pip_denom (yi yj : F) : F :=
  if |yj - yi| > EPS then yj - yi else EPS

/-- The per-edge test of `point_in_polygon`: the edge straddles the
horizontal line through the point, and the x where the (EPS-guarded)
crossing formula puts the intersection lies strictly to the right of the
point. -/
def pip_edge_test (point : F × F) (e : (F × F) × (F × F)) : Bool :=
  let xi := e.1.1
  let yi := e.1.2
  let xj := e.2.1
  let yj := e.2.2
  let between := decide (yi > point.2) != decide (yj > point.2)
  let intersect := (xj - xi) * (point.2 - yi) / pip_denom yi yj + xi
  between && decide (point.1 < intersect)

/-- Source `point_in_polygon`: even-odd ray-crossing test with a
horizontal rightward ray; `cnt` is accumulated over the edges exactly as
the source's `for` loop does. -/
def point_in_polygon (point : F × F) (poly : List (F × F)) : Bool :=
  ((polygon_edges poly).foldl
    (fun cnt e => if pip_edge_test point e then cnt + 1 else cnt) 0) % 2 == 1

/-- Source `cross_product`: the scalar cross product of the vectors
`p2 - p1` and `p4 - p3`. -/
def cross_product (p1 p2 p3 p4 : F × F) : F :=
  (p2.1 - p1.1) * (p4.2 - p3.2) - (p2.2 - p1.2) * (p4.1 - p3.1)

/-- Source `segment_ray_intersection`: `none` when the two carrier lines
are (nearly) parallel, otherwise the Cramer solution `(t, u)` of
`p1 + t*(p2-p1) = p3 + u*(p4-p3)` together with the point computed from
`t`. -/
def segment_ray_intersection (p1 p2 p3 p4 : F × F) :
    Option (F × F × (F × F)) :=
  let den := cross_product p1 p2 p3 p4
  if |den| < EPS then none
  else
    let t := cross_product p1 p3 p3 p4 / den
    let u := cross_product p1 p3 p1 p2 / den
    let ix := p1.1 + t * (p2.1 - p1.1)
    let iy := p1.2 + t * (p2.2 - p1.2)
    some (t, u, (ix, iy))

/-- The far end of the cast ray: `guard + RAY_LENGTH * (c, s)` where `c`
and `s` stand for `cos(angle)` and `sin(angle)` of the source. -/
def ray_end (guard : F × F) (c s : F) : F × F :=
  (guard.1 + RAY_LENGTH * c, guard.2 + RAY_LENGTH * s)

/-- One iteration of the edge loop of `cast_ray`: the accumulator is
`none` while no accepted hit was seen, otherwise `some (first_t,
first_point)` (the source initialises `first_t` to infinity, which the
`none` accumulator models). -/
def cast_ray_step (guard re : F × F) (acc : Option (F × (F × F)))
    (e : (F × F) × (F × F)) : Option (F × (F × F)) :=
  match segment_ray_intersection guard re e.1 e.2 with
  | none => acc
  | some (t, u, ip) =>
    if 1 / 100000000 < t ∧ -(1 / 100000000) ≤ u ∧ u ≤ 1 + 1 / 100000000 then
      match acc with
      | none => some (t, ip)
      | some (ft, fp) => if t < ft then some (t, ip) else some (ft, fp)
    else acc

/-- Source `cast_ray`: fold the per-edge update over all polygon edges
and return the point of the retained nearest hit, if any.  The angle
enters the source only through `cos(angle)` and `sin(angle)`, passed here
as the field values `c` and `s`. -/
def cast_ray (guard : F × F) (c s : F) (poly : List (F × F)) :
    Option (F × F) :=
  ((polygon_edges poly).foldl (cast_ray_step guard (ray_end guard c s))
    none).map Prod.snd

/-- Squared distance used by `dedupe_points`. -/
def sq_dist (p q : F × F) : F := (p.1 - q.1) ^ 2 + (p.2 - q.2) ^ 2

/-- The loop of source `dedupe_points`: keep `p` unless some already-kept
point of `out` is within `tol` of it (the source's inner loop with
`break` is the existence test `List.any`). -/
def dedupe_go (tol : F) (out : List (F × F)) : List (F × F) → List (F × F)
  | [] => out
  | p :: rest =>
    if out.any (fun q => decide (sq_dist p q < tol * tol)) then
      dedupe_go tol out rest
    else
      dedupe_go tol (out ++ [p]) rest

/-- Source `dedupe_points`: remove points that are too close to an
earlier kept point. -/
def dedupe_points (points : List (F × F)) (tol : F) : List (F × F) :=
  dedupe_go tol [] points

/-- The sort key of `visibility_polygon`: the angle
`atan2(p.y - guard.y, p.x - guard.x)`, with `atan2` an oracle. -/
def vis_key (atan2f : F → F → F) (guard p : F × F) : F :=
  atan2f (p.2 - guard.2) (p.1 - guard.1)

/-- Source `visibility_polygon`: jitter three candidate angles per
vertex, cast a ray at each, keep the hits, deduplicate with tolerance
`1e-5`, and sort ascending by angle around the guard (Python's stable
ascending `list.sort`, modelled by `List.mergeSort`).  The transcendental
`atan2`, `cos`, `sin` are oracle parameters. -/
def visibility_polygon (atan2f : F → F → F) (cosf sinf : F → F)
    (guard : F × F) (poly : List (F × F)) : List (F × F) :=
  let angles := poly.flatMap (fun v =>
    let a := vis_key atan2f guard v
    [a - 1 / 10000000, a, a + 1 / 10000000])
  let inters := angles.filterMap (fun a => cast_ray guard (cosf a) (sinf a) poly)
  let inters2 := dedupe_points inters (1 / 100000)
  inters2.mergeSort
    (fun p q => decide (vis_key atan2f guard p ≤ vis_key atan2f guard q))

/-- The MOUSEBUTTONDOWN branch of the source's event loop (lines
196-200): append the click position to the guard list exactly when it
lies inside the polygon.  The source fixes `poly := polygon_points`; it
is a parameter here so the same handler can be stated for any polygon. -/
def handle_mousebuttondown (poly : List (F × F)) (guards : List (F × F))
    (pos : F × F) : List (F × F) :=
  if point_in_polygon pos poly then guards ++ [pos] else guards

/-- The mutable state of the main loop: the `running` flag and the global
`guards` list. -/
structure GameState where
  running : Bool
  guards : List (ℚ × ℚ)

/-- The events the main loop reacts to; every pygame event other than
QUIT and MOUSEBUTTONDOWN is `other`. -/
inductive Event where
  | quit
  | mouseButtonDown (pos : ℚ × ℚ)
  | other

/-- One event dispatch of the source's event loop. -/
def handle_event (s : GameState) (e : Event) : GameState :=
  match e with
  | Event.quit => { s with running := false }
  | Event.mouseButtonDown pos =>
    { s with guards := handle_mousebuttondown polygon_points s.guards pos }
  | Event.other => s

/-- The state the source starts in: `running = True`, `guards = []`. -/
def initial_state : GameState := { running := true, guards := [] }

/-- The states the main loop can reach from the initial state by
processing any sequence of events. -/
inductive Reachable : GameState → Prop where
  | init : Reachable initial_state
  | step (s : GameState) (e : Event) : Reachable s → Reachable (handle_event s e)

/-- Spec-side reading of one edge of the claimed `point_in_polygon`
condition: the edge straddles the horizontal through the point and the
exact x-coordinate where the edge's carrier line crosses that horizontal
strictly exceeds the point's x-coordinate. -/
def pip_claim_edge_test (point : F × F) (e : (F × F) × (F × F)) : Bool :=
  (decide (e.1.2 > point.2) != decide (e.2.2 > point.2)) &&
    decide (point.1 <
      (e.2.1 - e.1.1) * (point.2 - e.1.2) / (e.2.2 - e.1.2) + e.1.1)

/-- Number of edges satisfying the spec-side claimed condition. -/
def pip_claim_count (point : F × F) (poly : List (F × F)) : Nat :=
  (polygon_edges poly).countP (pip_claim_edge_test point)

/-- Number of edges satisfying the source's actual (EPS-guarded)
condition. -/
def pip_code_count (point : F × F) (poly : List (F × F)) : Nat :=
  (polygon_edges poly).countP (pip_edge_test point)

/-- Spec-side list of accepted ray hits, in edge order: for each edge,
the `segment_ray_intersection` result between the ray segment and the
edge, kept when `t > 1e-8` and `-1e-8 ≤ u ≤ 1 + 1e-8`, recorded as the
pair of its parameter `t` and its intersection point. -/
def accepted_hits (guard : F × F) (c s : F) (poly : List (F × F)) :
    List (F × (F × F)) :=
  (polygon_edges poly).filterMap (fun e =>
    match segment_ray_intersection guard (ray_end guard c s) e.1 e.2 with
    | none => none
    | some (t, u, ip) =>
      if 1 / 100000000 < t ∧ -(1 / 100000000) ≤ u ∧ u ≤ 1 + 1 / 100000000 then
        some (t, ip)
      else none)

theorem EPS_pos : (0 : F) < EPS := by
  unfold EPS; positivity

/-- Claim C6: `segment_ray_intersection` returns `none` exactly when the
absolute cross product of the two direction vectors is below `EPS`
(parallel or nearly parallel); parallelism is absence of a result, never
an error (the function is total). -/
theorem segment_ray_intersection_none_iff (p1 p2 p3 p4 : F × F) :
    segment_ray_intersection p1 p2 p3 p4 = none ↔
      |cross_product p1 p2 p3 p4| < EPS := by
  simp only [segment_ray_intersection]
  split_ifs with h <;> simp [h]

/-- Claim C9: neither division of the core can divide by zero: the
guarded denominator of `point_in_polygon` is never zero, and on the
branch of `segment_ray_intersection` that divides, the denominator `den`
is nonzero. -/
theorem division_denominators_nonzero :
    (∀ yi yj : F, pip_denom yi yj ≠ 0) ∧
    (∀ p1 p2 p3 p4 : F × F,
      ¬ |cross_product p1 p2 p3 p4| < EPS → cross_product p1 p2 p3 p4 ≠ 0) := by
  constructor
  · intro yi yj
    unfold pip_denom
    split_ifs with h
    · intro h0
      rw [h0, abs_zero] at h
      exact absurd (EPS_pos.trans h) (lt_irrefl _)
    · exact ne_of_gt EPS_pos
  · intro p1 p2 p3 p4 h h0
    rw [h0, abs_zero] at h
    exact h EPS_pos

/-- Witness for C9 at concrete rational inputs. -/
theorem division_denominators_nonzero_witness :
    pip_denom (0 : ℚ) 0 ≠ 0 ∧ cross_product ((0 : ℚ), 0) (1, 0) (0, 1) (0, 0) ≠ 0 :=
  ⟨division_denominators_nonzero.1 0 0,
   division_denominators_nonzero.2 (0, 0) (1, 0) (0, 1) (0, 0)
     (by norm_num [cross_product, EPS])⟩

/-- Claim C3: for every candidate click position, guard list and polygon,
the MOUSEBUTTONDOWN handler appends the click position to the guard list
exactly when `point_in_polygon` accepts it; on rejection the guard list
is returned unchanged (and the handler is a total function, so no error
is raised). -/
theorem handle_mousebuttondown_spec (poly : List (F × F))
    (guards : List (F × F)) (pos : F × F) :
    (handle_mousebuttondown poly guards pos = guards ++ [pos] ↔
      point_in_polygon pos poly = true) ∧
    (point_in_polygon pos poly = false →
      handle_mousebuttondown poly guards pos = guards) := by
  unfold handle_mousebuttondown
  rcases Bool.eq_false_or_eq_true (point_in_polygon pos poly) with h | h <;>
    simp [h]

/-- Witness for C3: the origin lies outside the game polygon, and a click
there leaves an empty guard list unchanged. -/
theorem handle_mousebuttondown_spec_witness :
    point_in_polygon ((0 : ℚ), 0) polygon_points = false ∧
    handle_mousebuttondown polygon_points [] ((0 : ℚ), 0) = [] :=
  ⟨by norm_num [point_in_polygon, polygon_edges, pip_edge_test, pip_denom, EPS,
      polygon_points],
   (handle_mousebuttondown_spec polygon_points [] ((0 : ℚ), 0)).2
     (by norm_num [point_in_polygon, polygon_edges, pip_edge_test, pip_denom, EPS,
        polygon_points])⟩

/-- Claim C10: on a polygon with fewer than two vertices
`point_in_polygon` always returns `false` (with no vertex the edge loop is
empty, with one vertex the single degenerate edge never straddles), so the
click handler can never accept a guard against such a polygon. -/
theorem point_in_polygon_short (point : F × F) (poly : List (F × F))
    (guards : List (F × F)) (h : poly.length < 2) :
    point_in_polygon point poly = false ∧
    handle_mousebuttondown poly guards point = guards := by
  have hpip : point_in_polygon point poly = false := by
    cases poly with
    | nil => rfl
    | cons v rest =>
      cases rest with
      | nil => simp [point_in_polygon, polygon_edges, pip_edge_test]
      | cons w rest2 => simp at h; omega
  refine ⟨hpip, ?_⟩
  simp [handle_mousebuttondown, hpip]

/-- Witness for C10 at a one-vertex polygon. -/
theorem point_in_polygon_short_witness :
    point_in_polygon ((0 : ℚ), 0) [((1 : ℚ), 1)] = false ∧
    handle_mousebuttondown [((1 : ℚ), 1)] [] ((0 : ℚ), 0) = [] :=
  point_in_polygon_short ((0 : ℚ), 0) [((1 : ℚ), 1)] [] (by simp)

theorem foldl_count_eq {α : Type} (p : α → Bool) (l : List α) (n : ℕ) :
    l.foldl (fun cnt e => if p e then cnt + 1 else cnt) n = n + l.countP p := by
  induction l generalizing n with
  | nil => simp
  | cons a l ih =>
    rw [List.foldl_cons, List.countP_cons, ih]
    split_ifs with h <;> omega

/-- Claim C2 (amended): `point_in_polygon` returns `true` iff the number
of edges passing the source's guarded per-edge test (straddle, and the
point strictly left of the EPS-guarded crossing formula) is odd. -/
theorem point_in_polygon_parity (point : F × F) (poly : List (F × F)) :
    point_in_polygon point poly = true ↔ Odd (pip_code_count point poly) := by
  unfold point_in_polygon pip_code_count
  rw [foldl_count_eq]
  simp [Nat.odd_iff]

/-- A point and a nearly-degenerate triangle on which the EPS-guarded
crossing formula of the source disagrees with the exact line-crossing
formula of the claim: the top edge drops by only `8e-10` across its
width. -/
def cx_point : ℚ × ℚ := (0, 0)

/-- The nearly-degenerate triangle for the C2 counterexample. -/
def cx_poly : List (ℚ × ℚ) :=
  [(0, 1 / 2500000000), (10, -(1 / 2500000000)), (5, -10)]

/-- Counterexample to claim C2 as stated: the code classifies `cx_point`
as inside (`true`), but the number of edges whose exact carrier-line
crossing with the horizontal through the point lies strictly to its right
is 2, which is even, so the claimed equivalence fails. -/
theorem point_in_polygon_claim_cx :
    point_in_polygon cx_point cx_poly = true ∧
    ¬ Odd (pip_claim_count cx_point cx_poly) := by
  constructor
  · norm_num [cx_point, cx_poly, point_in_polygon, polygon_edges, pip_edge_test,
      pip_denom, EPS, abs_of_nonneg, abs_of_nonpos]
  · norm_num [cx_point, cx_poly, pip_claim_count, polygon_edges,
      pip_claim_edge_test, Nat.odd_iff, abs_of_nonneg, abs_of_nonpos]

/-- Claim C5: whenever the absolute denominator is at least `EPS`,
`segment_ray_intersection` returns parameters `t`, `u` and a point
`(ix, iy)` that exactly solve the two-line system: `(ix, iy)` is
`p1 + t*(p2-p1)`, and this equals `p3 + u*(p4-p3)`, in the exact field
arithmetic of the embedding. -/
theorem segment_ray_intersection_exact (p1 p2 p3 p4 : F × F)
    (h : EPS ≤ |cross_product p1 p2 p3 p4|) :
    ∃ t u ix iy,
      segment_ray_intersection p1 p2 p3 p4 = some (t, u, (ix, iy)) ∧
      ix = p1.1 + t * (p2.1 - p1.1) ∧
      iy = p1.2 + t * (p2.2 - p1.2) ∧
      p1.1 + t * (p2.1 - p1.1) = p3.1 + u * (p4.1 - p3.1) ∧
      p1.2 + t * (p2.2 - p1.2) = p3.2 + u * (p4.2 - p3.2) := by
  have hden : cross_product p1 p2 p3 p4 ≠ 0 := by
    intro h0
    rw [h0, abs_zero] at h
    exact absurd (lt_of_lt_of_le EPS_pos h) (lt_irrefl _)
  refine ⟨cross_product p1 p3 p3 p4 / cross_product p1 p2 p3 p4,
          cross_product p1 p3 p1 p2 / cross_product p1 p2 p3 p4,
          _, _, ?_, rfl, rfl, ?_, ?_⟩
  · simp only [segment_ray_intersection]
    rw [if_neg (not_lt.mpr h)]
  · unfold cross_product at hden ⊢
    field_simp
    ring
  · unfold cross_product at hden ⊢
    field_simp
    ring

/-- Witness for C5 at two concrete crossing segments. -/
theorem segment_ray_intersection_exact_witness :
    EPS ≤ |cross_product ((0 : ℚ), 0) (1, 0) (0, 1) (0, 0)| ∧
    (∃ t u ix iy,
      segment_ray_intersection ((0 : ℚ), 0) (1, 0) (0, 1) (0, 0) =
        some (t, u, (ix, iy)) ∧
      ix = 0 + t * (1 - 0) ∧
      iy = 0 + t * (0 - 0) ∧
      (0 : ℚ) + t * (1 - 0) = 0 + u * (0 - 0) ∧
      (0 : ℚ) + t * (0 - 0) = 1 + u * (0 - 1)) := by
  refine ⟨by norm_num [cross_product, EPS], ?_⟩
  have := segment_ray_intersection_exact ((0 : ℚ), 0) (1, 0) (0, 1) (0, 0)
    (by norm_num [cross_product, EPS])
  simpa using this

theorem sq_dist_comm (p q : F × F) : sq_dist p q = sq_dist q p := by
  unfold sq_dist; ring

theorem dedupe_go_append (tol : F) (rest : List (F × F)) :
    ∀ out : List (F × F), ∃ extra : List (F × F),
      dedupe_go tol out rest = out ++ extra ∧ extra.Sublist rest := by
  induction rest with
  | nil => intro out; exact ⟨[], by simp [dedupe_go]⟩
  | cons p rest ih =>
    intro out
    simp only [dedupe_go]
    by_cases h : (out.any fun q => decide (sq_dist p q < tol * tol)) = true
    · rcases ih out with ⟨extra, he, hs⟩
      rw [if_pos h]
      exact ⟨extra, he, hs.cons p⟩
    · rcases ih (out ++ [p]) with ⟨extra, he, hs⟩
      rw [if_neg h]
      refine ⟨p :: extra, ?_, hs.cons₂ p⟩
      rw [he, List.append_assoc]
      rfl

theorem dedupe_go_pairwise (tol : F) (rest : List (F × F)) :
    ∀ out : List (F × F),
      out.Pairwise (fun p q => tol * tol ≤ sq_dist p q) →
      (dedupe_go tol out rest).Pairwise (fun p q => tol * tol ≤ sq_dist p q) := by
  induction rest with
  | nil => intro out h; simpa [dedupe_go] using h
  | cons p rest ih =>
    intro out hout
    simp only [dedupe_go]
    by_cases h : (out.any fun q => decide (sq_dist p q < tol * tol)) = true
    · rw [if_pos h]; exact ih out hout
    · rw [if_neg h]
      apply ih
      rw [List.pairwise_append]
      refine ⟨hout, by simp, ?_⟩
      intro a ha b hb
      have hb' : b = p := by simpa using hb
      have h' : ¬ sq_dist p a < tol * tol := by
        intro hlt
        exact h (List.any_eq_true.mpr ⟨a, ha, decide_eq_true hlt⟩)
      rw [hb', sq_dist_comm a p]
      exact not_lt.mp h'

theorem dedupe_go_cover (tol : F) (rest : List (F × F)) :
    ∀ out : List (F × F), ∀ p ∈ rest,
      p ∈ dedupe_go tol out rest ∨
        ∃ q ∈ dedupe_go tol out rest, sq_dist p q < tol * tol := by
  induction rest with
  | nil => intro out p hp; simp at hp
  | cons a rest ih =>
    intro out p hp
    simp only [dedupe_go]
    by_cases h : (out.any fun q => decide (sq_dist a q < tol * tol)) = true
    · rw [if_pos h]
      rcases List.mem_cons.mp hp with hpa | hp'
      · rcases List.any_eq_true.mp h with ⟨q, hq, hlt⟩
        right
        rcases dedupe_go_append tol rest out with ⟨extra, he, -⟩
        refine ⟨q, by rw [he]; exact List.mem_append_left _ hq, ?_⟩
        rw [hpa]
        exact of_decide_eq_true hlt
      · exact ih out p hp'
    · rw [if_neg h]
      rcases List.mem_cons.mp hp with hpa | hp'
      · left
        rcases dedupe_go_append tol rest (out ++ [a]) with ⟨extra, he, -⟩
        rw [he]
        exact List.mem_append_left _ (by simp [hpa])
      · exact ih (out ++ [a]) p hp'

/-- Claim C7: for a positive tolerance, `dedupe_points` returns a
subsequence of its input (kept in first-occurrence order); every two kept
points are at squared distance at least `tol*tol` from each other, and
every input point is either kept or within squared distance `tol*tol` of
some kept point. -/
theorem dedupe_points_spec (points : List (F × F)) (tol : F) (_htol : 0 < tol) :
    (dedupe_points points tol).Sublist points ∧
    (dedupe_points points tol).Pairwise (fun p q => tol * tol ≤ sq_dist p q) ∧
    ∀ p ∈ points, p ∈ dedupe_points points tol ∨
      ∃ q ∈ dedupe_points points tol, sq_dist p q < tol * tol := by
  unfold dedupe_points
  refine ⟨?_, dedupe_go_pairwise tol points [] (by simp), dedupe_go_cover tol points []⟩
  rcases dedupe_go_append tol points [] with ⟨extra, he, hs⟩
  rw [he]
  simpa using hs

/-- Witness for C7 on a three-point list with one duplicate. -/
theorem dedupe_points_spec_witness :
    (0 : ℚ) < 1 ∧
    ((dedupe_points [((0 : ℚ), 0), (0, 0), (3, 3)] 1).Sublist
        [((0 : ℚ), 0), (0, 0), (3, 3)] ∧
      (dedupe_points [((0 : ℚ), 0), (0, 0), (3, 3)] 1).Pairwise
        (fun p q => 1 * 1 ≤ sq_dist p q) ∧
      ∀ p ∈ [((0 : ℚ), 0), (0, 0), (3, 3)],
        p ∈ dedupe_points [((0 : ℚ), 0), (0, 0), (3, 3)] 1 ∨
          ∃ q ∈ dedupe_points [((0 : ℚ), 0), (0, 0), (3, 3)] 1,
            sq_dist p q < 1 * 1) :=
  ⟨by norm_num, dedupe_points_spec [((0 : ℚ), 0), (0, 0), (3, 3)] 1 (by norm_num)⟩

/-- Claim C8: in every state the main event loop can reach from the
initial empty guard list, every stored guard satisfies
`point_in_polygon` with respect to the game polygon. -/
theorem reachable_guards_in_polygon (s : GameState) (h : Reachable s) :
    ∀ g ∈ s.guards, point_in_polygon g polygon_points = true := by
  induction h with
  | init => simp [initial_state]
  | step s' e hs ih =>
    cases e with
    | quit => exact ih
    | other => exact ih
    | mouseButtonDown pos =>
      intro g hg
      have hg' : g ∈ handle_mousebuttondown polygon_points s'.guards pos := hg
      unfold handle_mousebuttondown at hg'
      by_cases hp : point_in_polygon pos polygon_points = true
      · rw [if_pos hp] at hg'
        rcases List.mem_append.mp hg' with hg2 | hg2
        · exact ih g hg2
        · have : g = pos := by simpa using hg2
          rw [this]
          exact hp
      · rw [if_neg hp] at hg'
        exact ih g hg'

/-- Witness for C8: the state reached by one accepted click at
`(200, 200)` is reachable, and the theorem yields that this stored guard
is inside the polygon. -/
theorem reachable_guards_in_polygon_witness :
    point_in_polygon ((200 : ℚ), 200) polygon_points = true :=
  reachable_guards_in_polygon
    (handle_event initial_state (Event.mouseButtonDown (200, 200)))
    (Reachable.step initial_state (Event.mouseButtonDown (200, 200)) Reachable.init)
    (200, 200)
    (by norm_num [handle_event, initial_state, handle_mousebuttondown,
        point_in_polygon, polygon_edges, pip_edge_test, pip_denom, EPS,
        polygon_points])

/-- The per-edge hit of the ray caster as the claim describes it: the
intersection result, kept only when `t > 1e-8` and
`-1e-8 ≤ u ≤ 1 + 1e-8`. -/
def edge_hit (guard re : F × F) (e : (F × F) × (F × F)) :
    Option (F × (F × F)) :=
  match segment_ray_intersection guard re e.1 e.2 with
  | none => none
  | some (t, u, ip) =>
    if 1 / 100000000 < t ∧ -(1 / 100000000) ≤ u ∧ u ≤ 1 + 1 / 100000000 then
      some (t, ip)
    else none

/-- Combining one accepted hit into the running nearest hit, as the
source's `if t < first_t` update does. -/
def ray_combine (acc : Option (F × (F × F))) (h : F × (F × F)) :
    Option (F × (F × F)) :=
  match acc with
  | none => some h
  | some (ft, fp) => if h.1 < ft then some h else some (ft, fp)

theorem accepted_hits_eq_filterMap (guard : F × F) (c s : F)
    (poly : List (F × F)) :
    accepted_hits guard c s poly =
      (polygon_edges poly).filterMap (edge_hit guard (ray_end guard c s)) := rfl

theorem cast_ray_step_eq (guard re : F × F) (acc : Option (F × (F × F)))
    (e : (F × F) × (F × F)) :
    cast_ray_step guard re acc e =
      match edge_hit guard re e with
      | none => acc
      | some h => ray_combine acc h := by
  cases hseg : segment_ray_intersection guard re e.1 e.2 with
  | none => simp [cast_ray_step, edge_hit, hseg]
  | some r =>
    obtain ⟨t, u, ip⟩ := r
    simp only [cast_ray_step, edge_hit, hseg]
    split_ifs with hacc
    · rfl
    · rfl

theorem foldl_cast_ray_step (guard re : F × F)
    (edges : List ((F × F) × (F × F))) :
    ∀ acc, edges.foldl (cast_ray_step guard re) acc =
      (edges.filterMap (edge_hit guard re)).foldl ray_combine acc := by
  induction edges with
  | nil => intro acc; rfl
  | cons e edges ih =>
    intro acc
    rw [List.foldl_cons, cast_ray_step_eq]
    cases hh : edge_hit guard re e with
    | none => simp [List.filterMap_cons, hh, ih]
    | some h => simp [List.filterMap_cons, hh, ih]

theorem ray_combine_ne_none (acc : Option (F × (F × F))) (h : F × (F × F)) :
    ray_combine acc h ≠ none := by
  cases acc with
  | none => simp [ray_combine]
  | some a =>
    obtain ⟨ft, fp⟩ := a
    by_cases hl : h.1 < ft <;> simp [ray_combine, hl]

theorem foldl_ray_combine_none (l : List (F × (F × F))) :
    ∀ acc, l.foldl ray_combine acc = none ↔ acc = none ∧ l = [] := by
  induction l with
  | nil => intro acc; simp
  | cons h l ih =>
    intro acc
    rw [List.foldl_cons, ih]
    constructor
    · rintro ⟨hc, -⟩
      exact absurd hc (ray_combine_ne_none acc h)
    · rintro ⟨-, hcons⟩
      exact absurd hcons (by simp)

theorem ray_combine_spec (acc : Option (F × (F × F))) (q : F × (F × F)) :
    ∃ a, ray_combine acc q = some a ∧ a.1 ≤ q.1 ∧
      (∀ b, acc = some b → a.1 ≤ b.1) ∧ (a = q ∨ acc = some a) := by
  cases acc with
  | none =>
    refine ⟨q, rfl, le_refl _, ?_, Or.inl rfl⟩
    intro b hb
    exact absurd hb (by simp)
  | some b0 =>
    obtain ⟨ft, fp⟩ := b0
    by_cases hl : q.1 < ft
    · refine ⟨q, by simp [ray_combine, hl], le_refl _, ?_, Or.inl rfl⟩
      intro b hb
      injection hb with hb'
      rw [← hb']
      exact le_of_lt hl
    · refine ⟨(ft, fp), by simp [ray_combine, hl], not_lt.mp hl, ?_, Or.inr rfl⟩
      intro b hb
      injection hb with hb'
      rw [← hb']

theorem foldl_ray_combine_min (l : List (F × (F × F))) :
    ∀ acc h, l.foldl ray_combine acc = some h →
      (h ∈ l ∨ acc = some h) ∧ (∀ q ∈ l, h.1 ≤ q.1) ∧
        ∀ b, acc = some b → h.1 ≤ b.1 := by
  induction l with
  | nil =>
    intro acc h hf
    simp only [List.foldl_nil] at hf
    refine ⟨Or.inr hf, by simp, ?_⟩
    intro b hb
    rw [hf] at hb
    injection hb with hb'
    rw [hb']
  | cons q l ih =>
    intro acc h hf
    rw [List.foldl_cons] at hf
    rcases ray_combine_spec acc q with ⟨a, ha, haq, hab, hcase⟩
    obtain ⟨hmem, hmin, hacc⟩ := ih _ h hf
    have hha : h.1 ≤ a.1 := hacc a ha
    refine ⟨?_, ?_, ?_⟩
    · rcases hmem with hm | hm
      · exact Or.inl (List.mem_cons_of_mem _ hm)
      · rw [ha] at hm
        injection hm with hm'
        rcases hcase with hc | hc
        · refine Or.inl ?_
          rw [← hm', hc]
          exact List.mem_cons_self _ _
        · refine Or.inr ?_
          rw [← hm']
          exact hc
    · intro r hr
      rcases List.mem_cons.mp hr with hre | hrl
      · rw [hre]
        exact le_trans hha haq
      · exact hmin r hrl
    · intro b hb
      exact le_trans hha (hab b hb)

/-- Claim C1: `cast_ray` returns `none` exactly when no polygon edge
yields an accepted hit of `segment_ray_intersection` between the ray
segment from the guard and that edge (`t > 1e-8`,
`-1e-8 ≤ u ≤ 1 + 1e-8`); and when it returns a point, that point belongs
to an accepted hit whose parameter `t` is least among all accepted hits.
The ray direction enters only through `cos(angle)` and `sin(angle)`,
passed as `c` and `s`. -/
theorem cast_ray_spec (guard : F × F) (c s : F) (poly : List (F × F)) :
    (cast_ray guard c s poly = none ↔ accepted_hits guard c s poly = []) ∧
    ∀ p, cast_ray guard c s poly = some p →
      ∃ t, (t, p) ∈ accepted_hits guard c s poly ∧
        ∀ q ∈ accepted_hits guard c s poly, t ≤ q.1 := by
  have hcr : cast_ray guard c s poly =
      ((accepted_hits guard c s poly).foldl ray_combine none).map Prod.snd := by
    rw [accepted_hits_eq_filterMap, cast_ray, foldl_cast_ray_step]
  constructor
  · rw [hcr]
    constructor
    · intro hn
      have hfn : (accepted_hits guard c s poly).foldl ray_combine none = none := by
        rcases hfold : (accepted_hits guard c s poly).foldl ray_combine none with - | a
        · rfl
        · rw [hfold] at hn
          simp at hn
      exact ((foldl_ray_combine_none _ none).mp hfn).2
    · intro hl
      rw [hl]
      rfl
  · intro p hp
    rw [hcr] at hp
    rcases hfold : (accepted_hits guard c s poly).foldl ray_combine none with - | a
    · rw [hfold] at hp
      simp at hp
    · rw [hfold] at hp
      simp only [Option.map_some'] at hp
      injection hp with hp'
      obtain ⟨hmem, hmin, -⟩ := foldl_ray_combine_min _ none a hfold
      rcases hmem with hm | hm
      · refine ⟨a.1, ?_, hmin⟩
        have hae : a = (a.1, p) := by
          rw [← hp']
        rw [← hae]
        exact hm
      · exact absurd hm (by simp)

/-- The unit-square test polygon for the C1 witness. -/
def sq_poly : List (ℚ × ℚ) := [(0, 0), (10, 0), (10, 10), (0, 10)]

/-- Witness for C1: from `(5, 5)` at angle `0` (so `cos = 1`, `sin = 0`)
the ray hits the right edge of the square at `(10, 5)`, and the theorem
gives that this is the nearest accepted hit. -/
theorem cast_ray_spec_witness :
    cast_ray ((5 : ℚ), 5) 1 0 sq_poly = some (10, 5) ∧
    ∃ t, (t, ((10 : ℚ), 5)) ∈ accepted_hits ((5 : ℚ), 5) 1 0 sq_poly ∧
      ∀ q ∈ accepted_hits ((5 : ℚ), 5) 1 0 sq_poly, t ≤ q.1 := by
  have hc : cast_ray ((5 : ℚ), 5) 1 0 sq_poly = some (10, 5) := by
    norm_num [cast_ray, sq_poly, polygon_edges, cast_ray_step, ray_end,
      RAY_LENGTH, WIDTH, HEIGHT, segment_ray_intersection, cross_product, EPS,
      abs_of_nonneg, abs_of_nonpos]
  exact ⟨hc, (cast_ray_spec ((5 : ℚ), 5) 1 0 sq_poly).2 (10, 5) hc⟩

/-- Claim C4: the output of `visibility_polygon` is sorted ascending in
the angle key `atan2(p.y - guard.y, p.x - guard.x)` around the guard:
every pair of output points in order has non-decreasing key.  The
statement holds for every choice of the `atan2` oracle, in particular the
real `atan2`. -/
theorem visibility_polygon_sorted (atan2f : F → F → F) (cosf sinf : F → F)
    (guard : F × F) (poly : List (F × F)) :
    (visibility_polygon atan2f cosf sinf guard poly).Pairwise
      (fun p q => vis_key atan2f guard p ≤ vis_key atan2f guard q) := by
  simp only [visibility_polygon]
  refine List.Pairwise.imp ?_ (List.sorted_mergeSort ?_ ?_ _)
  · intro a b hab
    exact of_decide_eq_true hab
  · intro a b c hab hbc
    exact decide_eq_true
      (le_trans (of_decide_eq_true hab) (of_decide_eq_true hbc))
  · intro a b
    rcases le_total (vis_key atan2f guard a) (vis_key atan2f guard b) with h | h
    · simp [h]
    · simp [h]

end ArtGallery
